import Mathlib

/-
  Verification development for the mkversion program.

  The program computes a release version string from a repository's tag and
  branch names.  The model below is a shallow embedding of mkversion.py:

  * `VersionTuple` embeds the 4-component partially specified version tuples
    (Python tuples of int-or-None).
  * The two regular expressions
      tag_regexp    = ^v(\d+)(\.(\d+)|)(\.(\d+)|)(\.(\d+)|)(GA)$
      branch_regexp = ^.*/(\d+)(\.(\d+)|)(\.(\d+)|)(\.(\d+)|)(\.x|\.next|-patch|)$
    are embedded as deterministic recursive-descent matchers `tag_match` and
    `branch_match` over character lists.  The determinisation is faithful:
    in both patterns the optional groups `(\.(\d+)|)` can only consume a dot
    followed by digits, the suffix alternatives never start with a dot
    followed by a digit, and `\d+` is never able to give back characters to a
    viable continuation, so the greedy first-found match of the Python engine
    is the one produced here; similarly `.*/` commits to the last '/' since
    the rest of the pattern can never consume a '/'.
  * The module-level dictionaries `is_dev_branch` and `is_ga_tag` (used only
    as sets of keys) are embedded as the explicit `Registry` state threaded
    through `process`.
  * The driver (lines 129-192 of mkversion.py, in its file-input test mode)
    is embedded as `run`; printing to stdout with exit 0 becomes
    `RunResult.ok`, the bad-branch diagnostic on stderr with exit 1 becomes
    `RunResult.err`.
-/

namespace Mkversion

/-- A Python tuple of four int-or-None components: (major, minor, patch, build). -/
abbrev VersionTuple := Option Nat × Option Nat × Option Nat × Option Nat

/-- mkversion.py line 8: the version assumed by "master". -/
def DEFAULT_MASTER_VERSION : VersionTuple := (some 3, none, none, none)

/-- Python `version[i]` for i in 0..3 (the program never indexes past 3). -/
def vget : VersionTuple → Nat → Option Nat
  | (a, _, _, _), 0 => a
  | (_, b, _, _), 1 => b
  | (_, _, c, _), 2 => c
  | (_, _, _, d), 3 => d
  | _, _ => none

/-- Python `v = list(version); v[i] = x; tuple(v)` for i in 0..3. -/
def vset : VersionTuple → Nat → Option Nat → VersionTuple
  | (_, b, c, d), 0, x => (x, b, c, d)
  | (a, _, c, d), 1, x => (a, x, c, d)
  | (a, b, _, d), 2, x => (a, b, x, d)
  | (a, b, c, _), 3, x => (a, b, c, x)
  | t, _, _ => t

/-- The components of a tuple as a list, in order. -/
def toComps : VersionTuple → List (Option Nat)
  | (a, b, c, d) => [a, b, c, d]

/-- The two module-level registries of mkversion.py (lines 17 and 20), used
    as sets of version tuples. -/
structure Registry where
  is_dev_branch : List VersionTuple
  is_ga_tag : List VersionTuple

/-- Numeric value of a decimal digit character. -/
def charToDigit (c : Char) : Nat := c.toNat - 48

/-- Python `int(x)` on a non-empty digit string. -/
def digitsToNat (ds : List Char) : Nat :=
  ds.foldl (fun a c => 10 * a + charToDigit c) 0

/-- Match `\d+` at the head of the input: the digits (as a number) and the
    rest, or `none` if there is no leading digit. -/
def parseNat (l : List Char) : Option (Nat × List Char) :=
  let ds := l.takeWhile Char.isDigit
  if ds.isEmpty then none else some (digitsToNat ds, l.dropWhile Char.isDigit)

/-- Match `(\.(\d+)|)` up to `k` times: the optional group consumes a dot
    only when digits follow it, exactly as the regex alternative `\.(\d+)`
    does (the empty alternative is taken otherwise). -/
def parseComps : Nat → List Char → List Nat × List Char
  | 0, l => ([], l)
  | k + 1, l =>
    match l with
    | c :: rest =>
      if c = '.' then
        match parseNat rest with
        | some (n, rest2) =>
          match parseComps k rest2 with
          | (ns, r) => (n :: ns, r)
        | none => ([], l)
      else ([], l)
    | [] => ([], l)

/-- Build the 4-tuple from the matched groups 1,3,5,7: the required major
    plus up to three optional components (missing groups are None). -/
def mkTuple (maj : Nat) (comps : List Nat) : VersionTuple :=
  (some maj, comps.get? 0, comps.get? 1, comps.get? 2)

/-- The literal suffix `GA` of the tag grammar. -/
def gaChars : List Char := ['G', 'A']

/-- The literal suffix `.x` of the branch grammar. -/
def xChars : List Char := ['.', 'x']

/-- The literal suffix `.next` of the branch grammar. -/
def nextChars : List Char := ['.', 'n', 'e', 'x', 't']

/-- The literal suffix `-patch` of the branch grammar. -/
def patchChars : List Char := ['-', 'p', 'a', 't', 'c', 'h']

/-- The four alternatives of the branch grammar's suffix group
    `(\.x|\.next|-patch|)`. -/
def branchSuffixes : List (List Char) := [xChars, nextChars, patchChars, []]

/-- Embedding of `tag_regexp.match` (mkversion.py line 11) followed by the
    group extraction of `process`: on success, the version tuple and the
    text of group 8 (always `GA` here). -/
def tag_match (l : List Char) : Option (VersionTuple × List Char) :=
  match l with
  | c :: rest =>
    if c = 'v' then
      (parseNat rest).bind (fun mr =>
        if (parseComps 3 mr.2).2 = gaChars then
          some (mkTuple mr.1 (parseComps 3 mr.2).1, gaChars)
        else none)
    else none
  | [] => none

/-- The segment after the last '/' of the input, or `none` when the input
    has no '/' at all.  This is where `^.*/` (greedy `.*`) commits: nothing
    after the '/' in the branch pattern can match a '/', so only the last
    slash can head a successful match. -/
def afterLastSlash : List Char → Option (List Char)
  | [] => none
  | c :: rest =>
    match afterLastSlash rest with
    | some seg => some seg
    | none => if c = '/' then some rest else none

/-- Embedding of `branch_regexp.match` (mkversion.py line 14) followed by the
    group extraction of `process`: on success, the version tuple and the text
    of group 8 (one of `.x`, `.next`, `-patch`, or empty). -/
def branch_match (l : List Char) : Option (VersionTuple × List Char) :=
  (afterLastSlash l).bind (fun seg =>
    (parseNat seg).bind (fun mr =>
      if (parseComps 3 mr.2).2 ∈ branchSuffixes then
        some (mkTuple mr.1 (parseComps 3 mr.2).1, (parseComps 3 mr.2).2)
      else none))

/-- Embedding of `process` (mkversion.py lines 54-76): given a match result
    (tuple plus group 8), register development and GA patterns and return the
    tuple; `none` input models a failed regexp match. -/
def process (st : Registry) : Option (VersionTuple × List Char) → Option VersionTuple × Registry
  | none => (none, st)
  | some (result, g8) =>
    let st1 :=
      if g8 = patchChars ∨ g8 = nextChars ∨ g8 = xChars then
        { st with is_dev_branch := result :: st.is_dev_branch }
      else st
    let st2 :=
      if g8 = gaChars then
        { st1 with is_ga_tag := result :: st1.is_ga_tag }
      else st1
    (some result, st2)

/-- The loop of `is_ga` (mkversion.py lines 78-89): the index list [3,2,1]
    is the values taken by `i` in `while i > 0`, and the final membership
    check is the `return version in is_ga_tag` after the loop. -/
def is_ga_go (ga : List VersionTuple) : List Nat → VersionTuple → Bool
  | [], version => decide (version ∈ ga)
  | i :: rest, version =>
    if version ∈ ga then true
    else
      match vget version i with
      | some n => if n > 0 then false else is_ga_go ga rest (vset version i none)
      | none => is_ga_go ga rest (vset version i none)

/-- Embedding of `is_ga` (mkversion.py lines 78-89), with the GA registry
    passed explicitly. -/
def is_ga (ga : List VersionTuple) (v : VersionTuple) : Bool :=
  is_ga_go ga [3, 2, 1] v

/-- The loop of `is_same_base_version` (mkversion.py lines 101-112): the
    index list [0,1,2,3] is the values taken by `i` in `while i < 4`; the
    empty list is the implicit fall-through (Python returns None there). -/
def isbv_go (ga : List VersionTuple) (ref other : VersionTuple) : List Nat → Option VersionTuple
  | [] => none
  | i :: rest =>
    match vget ref i with
    | none =>
      some (match vget other i with
            | some n => vset ref i (some (n + 1))
            | none => if is_ga ga other then vset ref i (some 1) else ref)
    | some r =>
      if vget other i = some r then isbv_go ga ref other rest else none

/-- Embedding of `is_same_base_version` (mkversion.py lines 91-112), with the
    GA registry passed explicitly. -/
def is_same_base_version (ga : List VersionTuple) (ref other : VersionTuple) : Option VersionTuple :=
  isbv_go ga ref other [0, 1, 2, 3]

/-- Decimal digits of `n` pushed onto `acc`, with explicit fuel (the loop
    runs at most `fuel` times; `fuel = n` always suffices since `n / 10 < n`
    for positive `n`). -/
def natToDecAux : Nat → Nat → List Char → List Char
  | 0, _, acc => acc
  | fuel + 1, n, acc =>
    if n = 0 then acc else natToDecAux fuel (n / 10) (Nat.digitChar (n % 10) :: acc)

/-- Python `str(n)` for a non-negative integer: its decimal digit string. -/
def natToDecimal (n : Nat) : List Char :=
  if n = 0 then ['0'] else natToDecAux n n []

/-- The loop of `display` (mkversion.py lines 114-127): `sep` and `v` are
    the two string accumulators of the Python code. -/
def display_go : List (Option Nat) → List Char → List Char → List Char
  | [], _, v => v
  | none :: _, _, v => v
  | some n :: rest, sep, v =>
    if n = 0 then display_go rest (sep ++ ['0', '.']) v
    else display_go rest ['.'] (v ++ sep ++ natToDecimal n)

/-- Character-level result of `display` (mkversion.py lines 114-127). -/
def displayChars (t : VersionTuple) : List Char :=
  display_go (toComps t) [] []

/-- Embedding of `display` (mkversion.py lines 114-127). -/
def display (t : VersionTuple) : String :=
  String.mk (displayChars t)

/-- Python `s.strip()`: remove leading and trailing whitespace. -/
def stripChars (l : List Char) : List Char :=
  ((l.dropWhile Char.isWhitespace).reverse.dropWhile Char.isWhitespace).reverse

/-- Python `s.endswith(sfx)`. -/
def pyEndsWith (sfx l : List Char) : Bool :=
  sfx.reverse.isPrefixOf l.reverse

/-- The literal `/master` of the trunk-alias check (mkversion.py line 141). -/
def slashMasterChars : List Char := ['/', 'm', 'a', 's', 't', 'e', 'r']

/-- Outcome of one program run: one line on stdout with exit status 0, or a
    diagnostic on stderr with exit status 1 and no stdout output. -/
inductive RunResult where
  | ok (line : String)
  | err (diagnostic : String)
deriving DecidableEq

/-- The stderr diagnostic of mkversion.py line 147, naming the bad branch. -/
def badBranchMsg (name : String) : String := "Bad branch: " ++ name

/-- Current-branch validation (mkversion.py lines 140-148): the special case
    for names ending in `/master`, otherwise the branch grammar on the
    stripped name; `none` is the fatal `Bad branch` path. -/
def branchStep (my_branch_name : String) : Option (VersionTuple × Registry) :=
  let st0 : Registry := ⟨[], []⟩
  if pyEndsWith slashMasterChars my_branch_name.toList then
    some (DEFAULT_MASTER_VERSION,
          { st0 with is_dev_branch := DEFAULT_MASTER_VERSION :: st0.is_dev_branch })
  else
    match process st0 (branch_match (stripChars my_branch_name.toList)) with
    | (some v, st) => some (v, st)
    | (none, _) => none

/-- The tag loop (mkversion.py lines 152-155): collect matching tags in
    order, threading the registry. -/
def processTags (st : Registry) : List String → List VersionTuple × Registry
  | [] => ([], st)
  | tag :: rest =>
    match process st (tag_match (stripChars tag.toList)) with
    | (some v, st1) =>
      match processTags st1 rest with
      | (vs, st2) => (v :: vs, st2)
    | (none, st1) => processTags st1 rest

/-- The branch loop (mkversion.py lines 165-168): collect matching branches
    in order, threading the registry. -/
def processBranches (st : Registry) : List String → List VersionTuple × Registry
  | [] => ([], st)
  | branch :: rest =>
    match process st (branch_match (stripChars branch.toList)) with
    | (some v, st1) =>
      match processBranches st1 rest with
      | (vs, st2) => (v :: vs, st2)
    | (none, st1) => processBranches st1 rest

/-- Strict order on components for Python 2 tuple comparison: None sorts
    below every integer. -/
def optNatLT : Option Nat → Option Nat → Bool
  | none, none => false
  | none, some _ => true
  | some _, none => false
  | some i, some j => decide (i < j)

/-- Lexicographic non-strict order on component lists. -/
def compsLE : List (Option Nat) → List (Option Nat) → Bool
  | [], _ => true
  | _ :: _, [] => false
  | x :: xs, y :: ys =>
    if optNatLT x y then true else if optNatLT y x then false else compsLE xs ys

/-- Python 2 tuple comparison on version tuples. -/
def vtLE (a b : VersionTuple) : Bool := compsLE (toComps a) (toComps b)

/-- Insert into a sorted list (ascending). -/
def insertSorted (x : VersionTuple) : List VersionTuple → List VersionTuple
  | [] => [x]
  | y :: ys => if vtLE x y then x :: y :: ys else y :: insertSorted x ys

/-- Embedding of `versions.sort()` (mkversion.py line 174): ascending sort
    in the Python 2 tuple order. -/
def sortVersions (l : List VersionTuple) : List VersionTuple :=
  l.foldr insertSorted []

/-- The scan loop of the resolver (mkversion.py lines 173-185): walk the
    sorted candidates; a no-match is skipped while `final_version` is still
    None and breaks the loop otherwise; a match replaces `final_version`. -/
def scan_loop (ga : List VersionTuple) (my_branch : VersionTuple) :
    List VersionTuple → Option VersionTuple → Option VersionTuple
  | [], final => final
  | v :: rest, final =>
    match is_same_base_version ga my_branch v with
    | none =>
      match final with
      | none => scan_loop ga my_branch rest none
      | some f => some f
    | some c => scan_loop ga my_branch rest (some c)

/-- Embedding of the driver (mkversion.py lines 140-192) in its file-input
    mode: from the tag lines, branch lines and current branch name to the
    program outcome. -/
def run (tags branches : List String) (my_branch_name : String) : RunResult :=
  match branchStep my_branch_name with
  | none => RunResult.err (badBranchMsg my_branch_name)
  | some (my_branch, st1) =>
    match processTags st1 tags with
    | (versions, st2) =>
      if my_branch ∉ st2.is_dev_branch ∧ my_branch ∉ st2.is_ga_tag then
        RunResult.ok (display my_branch)
      else
        match processBranches st2 branches with
        | (versions2, st3) =>
          let sorted := sortVersions (versions ++ versions2)
          RunResult.ok (display
            (match scan_loop st3.is_ga_tag my_branch sorted none with
             | none => my_branch
             | some f => f))

/-- Modelled from the spec (§4.5/§4.6): the components of a tuple up to the
    first None. -/
def takeUntilNone : List (Option Nat) → List Nat
  | [] => []
  | none :: _ => []
  | some n :: rest => n :: takeUntilNone rest

/-- Modelled from the spec (§4.5/§4.6): drop the trailing run of zeros. -/
def dropTrailingZeros : List Nat → List Nat
  | [] => []
  | x :: xs =>
    if x = 0 ∧ dropTrailingZeros xs = [] then [] else x :: dropTrailingZeros xs

/-- The significant components of a tuple: up to the first None, with the
    trailing run of zeros removed. -/
def sigComps (t : VersionTuple) : List Nat :=
  dropTrailingZeros (takeUntilNone (toComps t))

/-- Dot-prefixed rendering of a tail of components. -/
def renderTail : List Nat → List Char
  | [] => []
  | y :: ys => '.' :: (natToDecimal y ++ renderTail ys)

/-- Modelled from the spec (§4.5): dotted decimal rendering of a component
    list. -/
def renderComps : List Nat → List Char
  | [] => []
  | x :: xs => natToDecimal x ++ renderTail xs

/-- Modelled from the spec (§4.5): render the components up to the first
    None, with the trailing run of zero components dropped, dot-separated. -/
def displaySpec (t : VersionTuple) : String :=
  String.mk (renderComps (sigComps t))

/-- The tuple whose leading components are the list `L` and whose remaining
    components are None. -/
def tupleFromList (L : List Nat) : VersionTuple :=
  (L.get? 0, L.get? 1, L.get? 2, L.get? 3)

/-- A component that the GA rollup walk treats as collapsible: zero or None. -/
def zeroOrNone : Option Nat → Bool
  | none => true
  | some n => decide (n = 0)

/-- True when the list does not start with a decimal digit. -/
def noLeadDigit : List Char → Bool
  | [] => true
  | c :: _ => !c.isDigit

/-- True when the list can follow the component groups of the two grammars
    without being mistaken for a further `\.(\d+)` component: it neither
    starts with a digit nor with a dot followed by a digit. -/
def goodSuffix : List Char → Bool
  | [] => true
  | c :: r => !c.isDigit && (if c = '.' then noLeadDigit r else true)

theorem natToDecAux_zero (f : Nat) (acc : List Char) : natToDecAux f 0 acc = acc := by
  cases f <;> simp [natToDecAux]

theorem natToDecAux_append (f : Nat) :
    ∀ (n : Nat) (acc : List Char), natToDecAux f n acc = natToDecAux f n [] ++ acc := by
  induction f with
  | zero => intro n acc; simp [natToDecAux]
  | succ f ih =>
    intro n acc
    by_cases h : n = 0
    · simp [natToDecAux, h]
    · rw [natToDecAux, if_neg h, natToDecAux, if_neg h, ih (n / 10),
        ih (n / 10) [Nat.digitChar (n % 10)], List.append_assoc]
      rfl

theorem natToDecAux_fuel (f : Nat) :
    ∀ (g n : Nat) (acc : List Char), n ≤ f → n ≤ g →
      natToDecAux f n acc = natToDecAux g n acc := by
  induction f with
  | zero =>
    intro g n acc hf _
    have : n = 0 := Nat.le_zero.mp hf
    subst this
    rw [natToDecAux_zero, natToDecAux_zero]
  | succ f ih =>
    intro g n acc hf hg
    by_cases h : n = 0
    · subst h; rw [natToDecAux_zero, natToDecAux_zero]
    · obtain ⟨g', rfl⟩ : ∃ g', g = g' + 1 :=
        ⟨g - 1, by omega⟩
      rw [natToDecAux, if_neg h, natToDecAux, if_neg h]
      have hlt : n / 10 < n := Nat.div_lt_self (Nat.pos_of_ne_zero h) (by omega)
      exact ih g' (n / 10) _ (by omega) (by omega)

/-- Peel the last decimal digit off `natToDecimal`. -/
theorem natToDecimal_cons (n : Nat) (h : n ≠ 0) :
    natToDecimal n =
      (if n / 10 = 0 then [] else natToDecimal (n / 10)) ++ [Nat.digitChar (n % 10)] := by
  obtain ⟨m, rfl⟩ : ∃ m, n = m + 1 := ⟨n - 1, by omega⟩
  rw [natToDecimal, if_neg h, natToDecAux, if_neg h, natToDecAux_append]
  by_cases h10 : (m + 1) / 10 = 0
  · rw [h10, natToDecAux_zero, if_pos rfl]
  · rw [if_neg h10, natToDecimal, if_neg h10]
    have hlt : (m + 1) / 10 < m + 1 := Nat.div_lt_self (by omega) (by omega)
    rw [natToDecAux_fuel m ((m + 1) / 10) ((m + 1) / 10) [] (by omega) (by omega)]

theorem digitChar_isDigit : ∀ d, d < 10 → (Nat.digitChar d).isDigit = true := by decide

theorem digitChar_val : ∀ d, d < 10 → charToDigit (Nat.digitChar d) = d := by decide

/-- Every character of a rendered number is a decimal digit. -/
theorem natToDecimal_digits (n : Nat) : ∀ c ∈ natToDecimal n, c.isDigit = true := by
  induction n using Nat.strong_induction_on with
  | _ n ih =>
    by_cases h : n = 0
    · subst h; decide
    · rw [natToDecimal_cons n h]
      intro c hc
      rcases List.mem_append.mp hc with hc | hc
      · by_cases h10 : n / 10 = 0
        · simp [h10] at hc
        · rw [if_neg h10] at hc
          exact ih (n / 10) (Nat.div_lt_self (Nat.pos_of_ne_zero h) (by omega)) c hc
      · rcases List.mem_singleton.mp hc with rfl
        exact digitChar_isDigit (n % 10) (Nat.mod_lt n (by omega))

theorem natToDecimal_ne_nil (n : Nat) : natToDecimal n ≠ [] := by
  by_cases h : n = 0
  · subst h; decide
  · rw [natToDecimal_cons n h]; simp

/-- Parsing the rendered digits of `n` recovers `n`. -/
theorem digitsToNat_natToDecimal (n : Nat) : digitsToNat (natToDecimal n) = n := by
  induction n using Nat.strong_induction_on with
  | _ n ih =>
    by_cases h : n = 0
    · subst h; decide
    · rw [natToDecimal_cons n h, digitsToNat, List.foldl_append]
      have hd : charToDigit (Nat.digitChar (n % 10)) = n % 10 :=
        digitChar_val (n % 10) (Nat.mod_lt n (by omega))
      by_cases h10 : n / 10 = 0
      · rw [if_pos h10]
        simp only [List.foldl_nil, List.foldl_cons, hd]
        omega
      · rw [if_neg h10]
        have := ih (n / 10) (Nat.div_lt_self (Nat.pos_of_ne_zero h) (by omega))
        rw [digitsToNat] at this
        simp only [this, List.foldl_cons, List.foldl_nil, hd]
        omega

/-- The dot-prefixed tail rendering of a non-empty list is a dot followed by
    its full rendering. -/
theorem renderTail_eq (L : List Nat) (h : L ≠ []) :
    renderTail L = '.' :: renderComps L := by
  cases L with
  | nil => exact absurd rfl h
  | cons y ys => rfl

/-- Invariant of the `display` loop: the accumulated output is `v`, plus the
    pending separator `sep` and the rendering of the significant components
    when any remain. -/
theorem display_go_spec (l : List (Option Nat)) :
    ∀ (sep v : List Char),
      display_go l sep v =
        v ++ (if dropTrailingZeros (takeUntilNone l) = [] then []
              else sep ++ renderComps (dropTrailingZeros (takeUntilNone l))) := by
  induction l with
  | nil => intro sep v; simp [display_go, takeUntilNone, dropTrailingZeros]
  | cons o rest ih =>
    intro sep v
    cases o with
    | none => simp [display_go, takeUntilNone, dropTrailingZeros]
    | some n =>
      by_cases hn : n = 0
      · subst hn
        rw [display_go, if_pos rfl, ih]
        by_cases hr : dropTrailingZeros (takeUntilNone rest) = []
        · simp [takeUntilNone, dropTrailingZeros, hr]
        · simp [takeUntilNone, dropTrailingZeros, hr, renderComps, renderTail_eq _ hr,
            natToDecimal, List.append_assoc]
      · rw [display_go, if_neg hn, ih]
        by_cases hr : dropTrailingZeros (takeUntilNone rest) = []
        · simp [takeUntilNone, dropTrailingZeros, hr, hn, renderComps, renderTail,
            List.append_assoc]
        · simp [takeUntilNone, dropTrailingZeros, hr, hn, renderComps, renderTail_eq _ hr,
            List.append_assoc]

/-- The `display` loop computes exactly the rendering of the significant
    components. -/
theorem displayChars_eq (t : VersionTuple) :
    displayChars t = renderComps (sigComps t) := by
  rw [displayChars, display_go_spec, sigComps]
  by_cases h : dropTrailingZeros (takeUntilNone (toComps t)) = []
  · simp [h, renderComps]
  · simp [h]

/-- C5: `display` renders components left to right, stops at the first None,
    and drops the trailing run of zero components while keeping interior
    zeros: it equals the spec-side rendering `displaySpec` on every tuple,
    and in particular produces the six listed example strings. -/
theorem display_drops_trailing_zeros :
    (∀ t : VersionTuple, display t = displaySpec t)
    ∧ display (some 1, some 0, some 2, none) = "1.0.2"
    ∧ display (some 1, some 0, none, none) = "1"
    ∧ display (some 1, some 2, some 0, some 0) = "1.2"
    ∧ display (some 1, some 0, some 0, none) = "1"
    ∧ display (some 1, some 0, some 2, some 0) = "1.0.2"
    ∧ display (none, none, none, none) = "" := by
  refine ⟨fun t => ?_, by decide, by decide, by decide, by decide, by decide, by decide⟩
  rw [display, displaySpec, displayChars_eq]

/-- One rollup step of `is_ga`: first the exact membership test, then the
    positivity stop, then the collapse of index `i` to None. -/
theorem is_ga_go_cons (ga : List VersionTuple) (i : Nat) (rest : List Nat) (v : VersionTuple) :
    is_ga_go ga (i :: rest) v =
      (decide (v ∈ ga) || (zeroOrNone (vget v i) && is_ga_go ga rest (vset v i none))) := by
  by_cases hm : v ∈ ga
  · simp [is_ga_go, hm]
  · cases h : vget v i with
    | none => simp [is_ga_go, hm, h, zeroOrNone]
    | some n =>
      cases n with
      | zero => simp [is_ga_go, hm, h, zeroOrNone]
      | succ m => simp [is_ga_go, hm, h, zeroOrNone]

/-- The final membership check of `is_ga` once the loop index list is
    exhausted. -/
theorem is_ga_go_nil (ga : List VersionTuple) (v : VersionTuple) :
    is_ga_go ga [] v = decide (v ∈ ga) := rfl

/-- C10: GA resolution never collapses or tests the major component: on any
    tuple with defined major `m`, `is_ga` is the membership disjunction over
    the four collapse stages gated by zero-or-None tests at indices 3, 2, 1
    only.  The right-hand side consults the GA set only at `(m,b,c,d)`,
    `(m,b,c,None)`, `(m,b,None,None)` and the coarsest `(m,None,None,None)`
    — never `(None,None,None,None)` — and no positivity test is ever applied
    to index 0, so a positive major can never cause a false return. -/
theorem is_ga_major_never_collapsed (ga : List VersionTuple) (m : Nat) (b c d : Option Nat) :
    is_ga ga (some m, b, c, d) =
      (decide ((some m, b, c, d) ∈ ga)
       || (zeroOrNone d
           && (decide ((some m, b, c, none) ∈ ga)
               || (zeroOrNone c
                   && (decide ((some m, b, none, none) ∈ ga)
                       || (zeroOrNone b
                           && decide ((some m, none, none, none) ∈ ga))))))) := by
  rw [is_ga, is_ga_go_cons, is_ga_go_cons, is_ga_go_cons, is_ga_go_nil]
  simp only [vget, vset]

/-- C3: `is_ga` is monotone under rollup: with exactly the GA tag
    `(a, b, None, None)` recorded (as tag `vA.BGA` records it), the rollup
    `(a, b, 0, 0)` is GA while `(a, b, 1, 0)` is not. -/
theorem is_ga_rollup_monotone (a b : Nat) :
    is_ga [(some a, some b, none, none)] (some a, some b, some 0, some 0) = true
    ∧ is_ga [(some a, some b, none, none)] (some a, some b, some 1, some 0) = false := by
  constructor <;>
    simp [is_ga, is_ga_go_cons, is_ga_go, vget, vset, zeroOrNone]

/-- C4: the scan over the candidate list: a no-match candidate is skipped
    when no candidate has matched yet (first clause) and terminates the scan
    with the last computed increment when one has (second clause); a
    matching candidate replaces the tracked result with its computed
    increment (third clause); an exhausted list yields the tracked result
    (fourth clause). -/
theorem scan_loop_spec (ga : List VersionTuple) (ref v : VersionTuple) (rest : List VersionTuple) :
    (is_same_base_version ga ref v = none →
        scan_loop ga ref (v :: rest) none = scan_loop ga ref rest none)
    ∧ (∀ f, is_same_base_version ga ref v = none →
        scan_loop ga ref (v :: rest) (some f) = some f)
    ∧ (∀ c acc, is_same_base_version ga ref v = some c →
        scan_loop ga ref (v :: rest) acc = scan_loop ga ref rest (some c))
    ∧ (∀ acc, scan_loop ga ref [] acc = acc) := by
  refine ⟨fun h => ?_, fun f h => ?_, fun c acc h => ?_, fun acc => ?_⟩
  · simp [scan_loop, h]
  · simp [scan_loop, h]
  · simp [scan_loop, h]
  · simp [scan_loop]

/-- Witness for C4 at concrete inputs: a mismatching candidate is skipped on
    an empty accumulator, terminates the scan on a non-empty one, and a
    matching candidate installs its increment. -/
theorem scan_loop_spec_witness :
    scan_loop [] (some 1, none, none, none) [(some 2, some 5, none, none)] none
        = scan_loop [] (some 1, none, none, none) [] none
    ∧ scan_loop [] (some 1, none, none, none) [(some 2, some 5, none, none)]
        (some (some 1, some 6, none, none)) = some (some 1, some 6, none, none)
    ∧ scan_loop [] (some 1, none, none, none) [(some 1, some 5, none, none)] none
        = scan_loop [] (some 1, none, none, none) [] (some (some 1, some 6, none, none)) :=
  ⟨(scan_loop_spec [] (some 1, none, none, none) (some 2, some 5, none, none) []).1 (by decide),
   (scan_loop_spec [] (some 1, none, none, none) (some 2, some 5, none, none) []).2.1
      (some 1, some 6, none, none) (by decide),
   (scan_loop_spec [] (some 1, none, none, none) (some 1, some 5, none, none) []).2.2.1
      (some 1, some 6, none, none) none (by decide)⟩

/-- C1 counterexample: with an empty GA set, `ref = (1, None, None, None)`
    and `other = (1, None, None, None)`, the first None index of `ref` is 1,
    `other` is also None there, `is_ga other` is false — yet the call
    returns the successful result `(1, None, None, None)`, not the no-match
    sentinel None as the claim states. -/
theorem is_same_base_version_none_case_counterexample :
    vget (some 1, none, none, none) 1 = none
    ∧ (∀ j, j < 1 → vget ((some 1, none, none, none) : VersionTuple) j ≠ none)
    ∧ vget (some 1, none, none, none) 1 = none
    ∧ is_ga [] (some 1, none, none, none) = false
    ∧ is_same_base_version [] (some 1, none, none, none) (some 1, none, none, none)
        = some (some 1, none, none, none) := by
  decide

/-- C1 amended: when the walk reaches the first None index `i` of `ref`
    (the components before `i` are defined and agree with `other`), `other`
    is also None at `i`, and `other` is not GA-resolved, the call returns a
    copy of `ref` unchanged — a successful (non-None) result, not the
    no-match sentinel. -/
theorem is_same_base_version_none_case (ga : List VersionTuple) (ref other : VersionTuple)
    (i : Nat) (hi : i < 4) (href : vget ref i = none)
    (hdef : ∀ j, j < i → vget ref j ≠ none)
    (hagree : ∀ j, j < i → vget ref j = vget other j)
    (hoth : vget other i = none) (hga : is_ga ga other = false) :
    is_same_base_version ga ref other = some ref := by
  interval_cases i
  · simp [is_same_base_version, isbv_go, href, hoth, hga]
  · obtain ⟨r0, h0⟩ := Option.ne_none_iff_exists'.mp (hdef 0 (by omega))
    have o0 : vget other 0 = some r0 := by rw [← hagree 0 (by omega), h0]
    simp [is_same_base_version, isbv_go, h0, o0, href, hoth, hga]
  · obtain ⟨r0, h0⟩ := Option.ne_none_iff_exists'.mp (hdef 0 (by omega))
    obtain ⟨r1, h1⟩ := Option.ne_none_iff_exists'.mp (hdef 1 (by omega))
    have o0 : vget other 0 = some r0 := by rw [← hagree 0 (by omega), h0]
    have o1 : vget other 1 = some r1 := by rw [← hagree 1 (by omega), h1]
    simp [is_same_base_version, isbv_go, h0, o0, h1, o1, href, hoth, hga]
  · obtain ⟨r0, h0⟩ := Option.ne_none_iff_exists'.mp (hdef 0 (by omega))
    obtain ⟨r1, h1⟩ := Option.ne_none_iff_exists'.mp (hdef 1 (by omega))
    obtain ⟨r2, h2⟩ := Option.ne_none_iff_exists'.mp (hdef 2 (by omega))
    have o0 : vget other 0 = some r0 := by rw [← hagree 0 (by omega), h0]
    have o1 : vget other 1 = some r1 := by rw [← hagree 1 (by omega), h1]
    have o2 : vget other 2 = some r2 := by rw [← hagree 2 (by omega), h2]
    simp [is_same_base_version, isbv_go, h0, o0, h1, o1, h2, o2, href, hoth, hga]

/-- Witness for the amended C1 at a concrete input. -/
theorem is_same_base_version_none_case_witness :
    is_same_base_version [] (some 1, none, none, none) (some 1, none, none, none)
      = some (some 1, none, none, none) :=
  is_same_base_version_none_case [] (some 1, none, none, none) (some 1, none, none, none) 1
    (by decide) (by decide) (by decide) (by decide) (by decide) (by decide)

/-- C2 counterexample: on tags `["v2GA"]`, branches `[]`, current branch
    `origin/2`, the program does not print `"2"`: it prints `"2.1"`. -/
theorem run_v2GA_counterexample :
    run [("v2GA")] [] ("origin/2") ≠ RunResult.ok ("2")
    ∧ run [("v2GA")] [] ("origin/2") = RunResult.ok ("2.1") := by
  constructor <;> decide

/-- C2 amended: on tags `["v2GA"]`, branches `[]`, current branch
    `origin/2`, the branch parses to `(2, None, None, None)` with no
    development suffix, but tag `v2GA` registers that very tuple in the GA
    set, so the early-exit condition of mkversion.py line 160 is false; the
    scan then matches the GA candidate `(2, None, None, None)` and
    increments, and the program prints `"2.1"`. -/
theorem run_v2GA_scenario :
    (process ⟨[], []⟩ (branch_match (stripChars ("origin/2").toList))).1
        = some (some 2, none, none, none)
    ∧ (processTags ⟨[], []⟩ [("v2GA")]).2.is_ga_tag = [(some 2, none, none, none)]
    ∧ ¬ ((some 2, none, none, none) ∉ (processTags ⟨[], []⟩ [("v2GA")]).2.is_dev_branch
         ∧ (some 2, none, none, none) ∉ (processTags ⟨[], []⟩ [("v2GA")]).2.is_ga_tag)
    ∧ run [("v2GA")] [] ("origin/2") = RunResult.ok ("2.1") := by
  refine ⟨by decide, by decide, by decide, by decide⟩

/-- The component group `(\.(\d+)|)` is tried at most `k` times, so at most
    `k` components are produced. -/
theorem parseComps_len (k : Nat) : ∀ l : List Char, (parseComps k l).1.length ≤ k := by
  induction k with
  | zero => intro l; simp [parseComps]
  | succ k ih =>
    intro l
    cases l with
    | nil => simp [parseComps]
    | cons c rest =>
      by_cases hc : c = '.'
      · subst hc
        cases hp : parseNat rest with
        | none => simp [parseComps, hp]
        | some p =>
          obtain ⟨n, rest2⟩ := p
          cases hq : parseComps k rest2 with
          | mk ns r =>
            have h := ih rest2
            rw [hq] at h
            simp only [List.length] at h ⊢
            simp [parseComps, hp, hq]
            omega
      · simp [parseComps, hc]

/-- Inversion of a successful tag match: the suffix is `GA` and the tuple is
    a major with at most three further components. -/
theorem tag_match_inv (l : List Char) (t : VersionTuple) (g : List Char)
    (h : tag_match l = some (t, g)) :
    g = gaChars ∧ ∃ m cs, t = mkTuple m cs ∧ cs.length ≤ 3 := by
  cases l with
  | nil => simp [tag_match] at h
  | cons c rest =>
    by_cases hc : c = 'v'
    · subst hc
      simp only [tag_match, eq_self_iff_true, if_true, Option.bind_eq_some] at h
      obtain ⟨⟨maj, rest2⟩, hp, hf⟩ := h
      by_cases hg : (parseComps 3 rest2).2 = gaChars
      · rw [if_pos hg] at hf
        obtain ⟨rfl, rfl⟩ : mkTuple maj (parseComps 3 rest2).1 = t ∧ gaChars = g := by
          simpa using hf
        exact ⟨rfl, maj, (parseComps 3 rest2).1, rfl, parseComps_len 3 rest2⟩
      · rw [if_neg hg] at hf
        simp at hf
    · simp [tag_match, hc] at h

/-- Inversion of a successful branch match: the suffix is one of the four
    branch suffixes and the tuple is a major with at most three further
    components. -/
theorem branch_match_inv (l : List Char) (t : VersionTuple) (g : List Char)
    (h : branch_match l = some (t, g)) :
    g ∈ branchSuffixes ∧ ∃ m cs, t = mkTuple m cs ∧ cs.length ≤ 3 := by
  simp only [branch_match, Option.bind_eq_some] at h
  obtain ⟨seg, hseg, ⟨maj, rest2⟩, hp, hf⟩ := h
  by_cases hg : (parseComps 3 rest2).2 ∈ branchSuffixes
  · rw [if_pos hg] at hf
    obtain ⟨rfl, rfl⟩ : mkTuple maj (parseComps 3 rest2).1 = t
        ∧ (parseComps 3 rest2).2 = g := by
      simpa using hf
    exact ⟨hg, maj, (parseComps 3 rest2).1, rfl, parseComps_len 3 rest2⟩
  · rw [if_neg hg] at hf
    simp at hf

/-- Components of a parsed tuple, by index. -/
theorem vget_mkTuple (m : Nat) (cs : List Nat) :
    vget (mkTuple m cs) 0 = some m
    ∧ vget (mkTuple m cs) 1 = cs.get? 0
    ∧ vget (mkTuple m cs) 2 = cs.get? 1
    ∧ vget (mkTuple m cs) 3 = cs.get? 2 :=
  ⟨rfl, rfl, rfl, rfl⟩

/-- Indexing past the four components yields None. -/
theorem vget_ge_four (t : VersionTuple) (i : Nat) : vget t (i + 4) = none := by
  rcases t with ⟨a, b, c, d⟩
  rfl

/-- C8: every tuple produced by either grammar is prefix-shaped: the major
    component is always defined, and a None component is never followed by a
    defined one (the Nones form a trailing suffix). -/
theorem parsed_tuples_prefix_shaped (s : List Char) (t : VersionTuple) (g : List Char)
    (h : tag_match s = some (t, g) ∨ branch_match s = some (t, g)) :
    (vget t 0).isSome = true ∧ ∀ i, vget t i = none → vget t (i + 1) = none := by
  have hsh : ∃ m cs, t = mkTuple m cs := by
    rcases h with h | h
    · obtain ⟨-, m, cs, ht, -⟩ := tag_match_inv s t g h; exact ⟨m, cs, ht⟩
    · obtain ⟨-, m, cs, ht, -⟩ := branch_match_inv s t g h; exact ⟨m, cs, ht⟩
  obtain ⟨m, cs, rfl⟩ := hsh
  refine ⟨rfl, fun i hi => ?_⟩
  rcases i with _ | (_ | (_ | (_ | i)))
  · exact absurd hi (by simp [mkTuple, vget])
  · have h0 : cs.length ≤ 0 := List.get?_eq_none.mp hi
    exact List.get?_eq_none.mpr (by omega)
  · have h1 : cs.length ≤ 1 := List.get?_eq_none.mp hi
    exact List.get?_eq_none.mpr (by omega)
  · exact vget_ge_four (mkTuple m cs) 0
  · exact vget_ge_four (mkTuple m cs) (i + 1)

/-- Witness for C8 at the concrete tag `v1.2GA`: the parsed tuple
    `(1, 2, None, None)` has a defined major, and its None at index 2 is
    followed by a None at index 3. -/
theorem parsed_tuples_prefix_shaped_witness :
    (vget ((some 1, some 2, none, none) : VersionTuple) 0).isSome = true
    ∧ (vget ((some 1, some 2, none, none) : VersionTuple) 2 = none →
       vget ((some 1, some 2, none, none) : VersionTuple) 3 = none) := by
  have h := parsed_tuples_prefix_shaped (("v1.2GA").toList) (some 1, some 2, none, none)
    gaChars (Or.inl (by decide))
  exact ⟨h.1, h.2 2⟩

/-- When current-branch validation succeeds, the rest of the driver is a
    total computation ending in one printed line with exit status 0. -/
theorem run_ok_of (tags branches : List String) (name : String) (mb : VersionTuple)
    (st : Registry) (h : branchStep name = some (mb, st)) :
    ∃ line, run tags branches name = RunResult.ok line := by
  unfold run
  rw [h]
  rcases hpt : processTags st tags with ⟨versions, st2⟩
  simp only [hpt]
  by_cases hc : mb ∉ st2.is_dev_branch ∧ mb ∉ st2.is_ga_tag
  · exact ⟨display mb, by rw [if_pos hc]⟩
  · rw [if_neg hc]
    rcases hpb : processBranches st2 branches with ⟨versions2, st3⟩
    simp only [hpb]
    exact ⟨_, rfl⟩

/-- When the current branch neither ends in `/master` nor matches the branch
    grammar, the driver stops with the `Bad branch` diagnostic and produces
    no stdout line. -/
theorem run_err_of (tags branches : List String) (name : String)
    (hends : pyEndsWith slashMasterChars name.toList = false)
    (hbm : branch_match (stripChars name.toList) = none) :
    run tags branches name = RunResult.err (badBranchMsg name) := by
  have hb : branchStep name = none := by
    unfold branchStep
    rw [if_neg (by rw [hends]; simp), hbm]
    rfl
  unfold run
  rw [hb]

/-- C7: for every input triple, if the current branch name does not end in
    the trunk alias `/master` and the branch grammar rejects it, the run
    produces the stderr diagnostic naming the branch and exits nonzero with
    no stdout output; otherwise it emits exactly one version line and exits
    0. -/
theorem run_outcome_dichotomy (tags branches : List String) (name : String) :
    (pyEndsWith slashMasterChars name.toList = false
        ∧ branch_match (stripChars name.toList) = none →
      run tags branches name = RunResult.err (badBranchMsg name))
    ∧ (pyEndsWith slashMasterChars name.toList = true
        ∨ branch_match (stripChars name.toList) ≠ none →
      ∃ line, run tags branches name = RunResult.ok line) := by
  constructor
  · rintro ⟨h1, h2⟩
    exact run_err_of tags branches name h1 h2
  · intro h
    by_cases he : pyEndsWith slashMasterChars name.toList = true
    · refine run_ok_of tags branches name DEFAULT_MASTER_VERSION
        ⟨[DEFAULT_MASTER_VERSION], []⟩ ?_
      unfold branchStep
      rw [if_pos he]
    · have he' : pyEndsWith slashMasterChars name.toList = false := by
        cases hx : pyEndsWith slashMasterChars name.toList
        · rfl
        · exact absurd hx he
      have hne : branch_match (stripChars name.toList) ≠ none := by
        rcases h with h | h
        · exact absurd h he
        · exact h
      obtain ⟨⟨v, g⟩, hp⟩ := Option.ne_none_iff_exists'.mp hne
      refine run_ok_of tags branches name v (process ⟨[], []⟩ (some (v, g))).2 ?_
      unfold branchStep
      rw [if_neg (by rw [he']; simp), hp]
      rfl

/-- Witness for C7: a slash-free non-master branch name is fatal with the
    naming diagnostic, while a parseable branch name yields an output
    line. -/
theorem run_outcome_dichotomy_witness :
    run [] [] ("foo") = RunResult.err (badBranchMsg ("foo"))
    ∧ ∃ line, run [] [] ("a/1.2") = RunResult.ok line :=
  ⟨(run_outcome_dichotomy [] [] ("foo")).1 ⟨by decide, by decide⟩,
   (run_outcome_dichotomy [] [] ("a/1.2")).2 (Or.inr (by decide))⟩

/-- A string without '/' has no segment after a last slash. -/
theorem afterLastSlash_eq_none : ∀ l : List Char, '/' ∉ l → afterLastSlash l = none := by
  intro l
  induction l with
  | nil => intro h; rfl
  | cons c rest ih =>
    intro h
    have hc : ¬(c = '/') := fun hh => h (hh ▸ List.mem_cons_self c rest)
    have hr : '/' ∉ rest := fun hh => h (List.mem_cons_of_mem c hh)
    rw [afterLastSlash, ih hr]
    simp [hc]

/-- The branch grammar requires a '/': slash-free strings are rejected. -/
theorem branch_match_eq_none_of_no_slash (l : List Char) (h : '/' ∉ l) :
    branch_match l = none := by
  rw [branch_match, afterLastSlash_eq_none l h]
  rfl

/-- Stripping whitespace introduces no new characters. -/
theorem not_mem_stripChars (c : Char) (l : List Char) (h : c ∉ l) : c ∉ stripChars l := by
  intro hc
  apply h
  unfold stripChars at hc
  have h1 := List.mem_reverse.mp hc
  have h2 := (List.dropWhile_sublist _).subset h1
  have h3 := List.mem_reverse.mp h2
  exact (List.dropWhile_sublist _).subset h3

/-- A slash-free name cannot end in `/master`. -/
theorem pyEndsWith_slashMaster_false (l : List Char) (h : '/' ∉ l) :
    pyEndsWith slashMasterChars l = false := by
  cases hx : pyEndsWith slashMasterChars l
  · rfl
  · exfalso
    have hpre : slashMasterChars.reverse <+: l.reverse :=
      List.isPrefixOf_iff_prefix.mp hx
    have hm : '/' ∈ l.reverse := hpre.subset (by decide)
    exact h (List.mem_reverse.mp hm)

/-- C9: the branch grammar only accepts strings containing a '/', so a
    slash-free current branch name (such as the bare name `master`, which
    does not end in `/master`) is a fatal error. -/
theorem slashless_branch_is_fatal :
    (∀ l : List Char, '/' ∉ l → branch_match l = none)
    ∧ ∀ (tags branches : List String) (name : String), '/' ∉ name.toList →
        run tags branches name = RunResult.err (badBranchMsg name) := by
  refine ⟨fun l h => branch_match_eq_none_of_no_slash l h,
    fun tags branches name h => ?_⟩
  exact run_err_of tags branches name (pyEndsWith_slashMaster_false name.toList h)
    (branch_match_eq_none_of_no_slash _ (not_mem_stripChars '/' _ h))

/-- Witness for C9: the branch grammar rejects the slash-free `1.2`, and a
    run whose current branch is the bare name `master` aborts with the
    diagnostic (the trunk alias requires the `/master` form). -/
theorem slashless_branch_is_fatal_witness :
    branch_match (("1.2").toList) = none
    ∧ run [] [] ("master") = RunResult.err (badBranchMsg ("master")) :=
  ⟨slashless_branch_is_fatal.1 (("1.2").toList) (by decide),
   slashless_branch_is_fatal.2 [] [] ("master") (by decide)⟩

/-- A good suffix does not start with a digit. -/
theorem goodSuffix_noLead (r : List Char) (h : goodSuffix r = true) : noLeadDigit r = true := by
  cases r with
  | nil => rfl
  | cons c rest =>
    have h' : c.isDigit = false ∧ (¬c = '.' ∨ noLeadDigit rest = true) := by
      simpa [goodSuffix] using h
    simp [noLeadDigit, h'.1]

/-- When the input does not start with a digit, `\d+` has nothing to eat. -/
theorem takeWhile_digits_nil (ys : List Char) (h : noLeadDigit ys = true) :
    ys.takeWhile Char.isDigit = [] := by
  cases ys with
  | nil => rfl
  | cons c r =>
    have hc : c.isDigit = false := by simpa [noLeadDigit] using h
    simp [List.takeWhile, hc]

/-- When the input does not start with a digit, dropping `\d+` is the
    identity. -/
theorem dropWhile_digits_id (ys : List Char) (h : noLeadDigit ys = true) :
    ys.dropWhile Char.isDigit = ys := by
  cases ys with
  | nil => rfl
  | cons c r =>
    have hc : c.isDigit = false := by simpa [noLeadDigit] using h
    simp [List.dropWhile, hc]

/-- Parsing the rendition of `n` followed by non-digit material yields `n`
    and leaves the material untouched. -/
theorem parseNat_render (n : Nat) (rest : List Char) (h : noLeadDigit rest = true) :
    parseNat (natToDecimal n ++ rest) = some (n, rest) := by
  have htw : (natToDecimal n ++ rest).takeWhile Char.isDigit = natToDecimal n := by
    rw [List.takeWhile_append_of_pos (natToDecimal_digits n), takeWhile_digits_nil rest h,
      List.append_nil]
  have hdw : (natToDecimal n ++ rest).dropWhile Char.isDigit = rest := by
    rw [List.dropWhile_append_of_pos (natToDecimal_digits n), dropWhile_digits_id rest h]
  have hne : (natToDecimal n).isEmpty ≠ true := by
    cases hh : natToDecimal n with
    | nil => exact absurd hh (natToDecimal_ne_nil n)
    | cons a l => simp [List.isEmpty]
  simp only [parseNat, htw, hdw]
  rw [if_neg hne, digitsToNat_natToDecimal]

/-- On a good suffix the component group matches zero further components. -/
theorem parseComps_stop (r : List Char) (h : goodSuffix r = true) :
    ∀ k, parseComps k r = ([], r) := by
  intro k
  cases k with
  | zero => rfl
  | succ k =>
    cases r with
    | nil => rfl
    | cons c rest =>
      by_cases hc : c = '.'
      · subst hc
        have h2 : noLeadDigit rest = true := by simpa [goodSuffix] using h
        have hpn : parseNat rest = none := by
          simp [parseNat, takeWhile_digits_nil rest h2]
        simp [parseComps, hpn]
      · simp [parseComps, hc]

/-- The dot-prefixed tail rendering followed by a good suffix does not start
    with a digit. -/
theorem noLeadDigit_renderTail_append (xs : List Nat) (sfx : List Char)
    (h : goodSuffix sfx = true) : noLeadDigit (renderTail xs ++ sfx) = true := by
  cases xs with
  | nil =>
    simp only [renderTail, List.nil_append]
    exact goodSuffix_noLead sfx h
  | cons y ys =>
    simp only [renderTail, List.cons_append, noLeadDigit]
    decide

/-- Parsing the dot-prefixed rendering of `L` followed by a good suffix
    recovers exactly `L` and the suffix, given enough component budget. -/
theorem parseComps_render : ∀ (L : List Nat) (k : Nat) (sfx : List Char),
    L.length ≤ k → goodSuffix sfx = true →
    parseComps k (renderTail L ++ sfx) = (L, sfx) := by
  intro L
  induction L with
  | nil =>
    intro k sfx _ hs
    simpa [renderTail] using parseComps_stop sfx hs k
  | cons x xs ih =>
    intro k sfx hlen hs
    obtain ⟨k', rfl⟩ : ∃ k', k = k' + 1 := by
      cases k with
      | zero => simp at hlen
      | succ k' => exact ⟨k', rfl⟩
    have hnl : noLeadDigit (renderTail xs ++ sfx) = true :=
      noLeadDigit_renderTail_append xs sfx hs
    have hpn : parseNat (natToDecimal x ++ (renderTail xs ++ sfx))
        = some (x, renderTail xs ++ sfx) := parseNat_render x _ hnl
    have hxs : xs.length ≤ k' := by simp at hlen; omega
    have hih : parseComps k' (renderTail xs ++ sfx) = (xs, sfx) := ih k' sfx hxs hs
    simp only [renderTail, List.cons_append, List.append_assoc]
    simp [parseComps, hpn, hih]

/-- The parsed tuple of a leading major and component tail, as a
    `tupleFromList`. -/
theorem mkTuple_tupleFromList (x : Nat) (xs : List Nat) :
    mkTuple x xs = tupleFromList (x :: xs) := rfl

/-- Re-parsing a rendered non-empty component list under the tag grammar
    recovers exactly those components. -/
theorem tag_reparse (L : List Nat) (hne : L ≠ []) (hlen : L.length ≤ 4) :
    tag_match ('v' :: (renderComps L ++ gaChars)) = some (tupleFromList L, gaChars) := by
  obtain ⟨x, xs, rfl⟩ : ∃ x xs, L = x :: xs := by
    cases L with
    | nil => exact absurd rfl hne
    | cons x xs => exact ⟨x, xs, rfl⟩
  have hnl : noLeadDigit (renderTail xs ++ gaChars) = true :=
    noLeadDigit_renderTail_append xs gaChars (by decide)
  have hpn : parseNat (natToDecimal x ++ (renderTail xs ++ gaChars))
      = some (x, renderTail xs ++ gaChars) := parseNat_render x _ hnl
  have hxs : xs.length ≤ 3 := by simp at hlen; omega
  have hpc : parseComps 3 (renderTail xs ++ gaChars) = (xs, gaChars) :=
    parseComps_render xs 3 gaChars hxs (by decide)
  simp only [tag_match, eq_self_iff_true, if_true, renderComps, List.append_assoc, hpn,
    Option.some_bind]
  simp [hpc, mkTuple_tupleFromList]

/-- Every character of the tail rendering is a digit or a dot. -/
theorem renderTail_chars (xs : List Nat) : ∀ c ∈ renderTail xs, c.isDigit = true ∨ c = '.' := by
  induction xs with
  | nil => intro c hc; simp [renderTail] at hc
  | cons y ys ih =>
    intro c hc
    simp only [renderTail, List.mem_cons, List.mem_append] at hc
    rcases hc with rfl | hc | hc
    · exact Or.inr rfl
    · exact Or.inl (natToDecimal_digits y c hc)
    · exact ih c hc

/-- Every character of a rendered component list is a digit or a dot. -/
theorem renderComps_chars (L : List Nat) :
    ∀ c ∈ renderComps L, c.isDigit = true ∨ c = '.' := by
  cases L with
  | nil => intro c hc; simp [renderComps] at hc
  | cons x xs =>
    intro c hc
    rcases List.mem_append.mp (by simpa [renderComps] using hc) with hc | hc
    · exact Or.inl (natToDecimal_digits x c hc)
    · exact renderTail_chars xs c hc

/-- No branch suffix contains a slash. -/
theorem branchSuffix_no_slash (g : List Char) (hg : g ∈ branchSuffixes) : '/' ∉ g := by
  fin_cases hg <;> decide

/-- Every branch suffix is a good suffix. -/
theorem goodSuffix_of_branchSuffix (g : List Char) (hg : g ∈ branchSuffixes) :
    goodSuffix g = true := by
  fin_cases hg <;> decide

/-- A known last-slash split extends through a further leading character. -/
theorem afterLastSlash_cons_of_some (c : Char) (rest seg : List Char)
    (h : afterLastSlash rest = some seg) : afterLastSlash (c :: rest) = some seg := by
  rw [afterLastSlash, h]

/-- Re-parsing a rendered non-empty component list under the branch grammar,
    behind a path prefix and before a branch suffix, recovers exactly those
    components and that suffix. -/
theorem branch_reparse (L : List Nat) (g : List Char) (hne : L ≠ []) (hlen : L.length ≤ 4)
    (hg : g ∈ branchSuffixes) :
    branch_match ('x' :: '/' :: (renderComps L ++ g)) = some (tupleFromList L, g) := by
  obtain ⟨x, xs, rfl⟩ : ∃ x xs, L = x :: xs := by
    cases L with
    | nil => exact absurd rfl hne
    | cons x xs => exact ⟨x, xs, rfl⟩
  have hgs : goodSuffix g = true := goodSuffix_of_branchSuffix g hg
  have hns : '/' ∉ renderComps (x :: xs) ++ g := by
    intro hmem
    rcases List.mem_append.mp hmem with hm | hm
    · rcases renderComps_chars _ '/' hm with hd | hd
      · exact absurd hd (by decide)
      · exact absurd hd (by decide)
    · exact branchSuffix_no_slash g hg hm
  have hals : afterLastSlash ('x' :: '/' :: (renderComps (x :: xs) ++ g))
      = some (renderComps (x :: xs) ++ g) := by
    refine afterLastSlash_cons_of_some 'x' _ _ ?_
    rw [afterLastSlash, afterLastSlash_eq_none _ hns]
    simp
  have hnl : noLeadDigit (renderTail xs ++ g) = true :=
    noLeadDigit_renderTail_append xs g hgs
  have hpn : parseNat (natToDecimal x ++ (renderTail xs ++ g))
      = some (x, renderTail xs ++ g) := parseNat_render x _ hnl
  have hxs : xs.length ≤ 3 := by simp at hlen; omega
  have hpc : parseComps 3 (renderTail xs ++ g) = (xs, g) :=
    parseComps_render xs 3 g hxs hgs
  unfold branch_match
  rw [hals, Option.some_bind]
  simp only [renderComps, List.append_assoc, hpn, Option.some_bind]
  simp [hpc, hg, mkTuple_tupleFromList]

/-- Components surviving `takeUntilNone` coincide with the original list. -/
theorem takeUntilNone_get? : ∀ (l : List (Option Nat)) (i : Nat) (v : Nat),
    (takeUntilNone l).get? i = some v → l.get? i = some (some v) := by
  intro l
  induction l with
  | nil => intro i v h; simp [takeUntilNone] at h
  | cons o rest ih =>
    intro i v h
    cases o with
    | none => simp [takeUntilNone] at h
    | some n =>
      cases i with
      | zero =>
        simp only [takeUntilNone, List.get?] at h ⊢
        injection h with h
        rw [h]
      | succ i =>
        simp only [takeUntilNone, List.get?] at h ⊢
        exact ih i v h

/-- Components surviving `dropTrailingZeros` coincide with the original
    list. -/
theorem dropTrailingZeros_get? : ∀ (l : List Nat) (i : Nat) (v : Nat),
    (dropTrailingZeros l).get? i = some v → l.get? i = some v := by
  intro l
  induction l with
  | nil => intro i v h; simp [dropTrailingZeros] at h
  | cons x xs ih =>
    intro i v h
    rw [dropTrailingZeros] at h
    by_cases hc : x = 0 ∧ dropTrailingZeros xs = []
    · rw [if_pos hc] at h; simp at h
    · rw [if_neg hc] at h
      cases i with
      | zero => simpa using h
      | succ i =>
        simp only [List.get?] at h ⊢
        exact ih i v h

theorem takeUntilNone_len : ∀ l : List (Option Nat), (takeUntilNone l).length ≤ l.length := by
  intro l
  induction l with
  | nil => simp [takeUntilNone]
  | cons o rest ih =>
    cases o with
    | none => simp [takeUntilNone]
    | some n => simpa [takeUntilNone] using ih

theorem dropTrailingZeros_len : ∀ l : List Nat, (dropTrailingZeros l).length ≤ l.length := by
  intro l
  induction l with
  | nil => simp [dropTrailingZeros]
  | cons x xs ih =>
    rw [dropTrailingZeros]
    by_cases hc : x = 0 ∧ dropTrailingZeros xs = []
    · rw [if_pos hc]; simp
    · rw [if_neg hc]; simpa using ih

/-- A tuple has at most four significant components. -/
theorem sigComps_len_le_four (t : VersionTuple) : (sigComps t).length ≤ 4 := by
  rcases t with ⟨a, b, c, d⟩
  refine le_trans (dropTrailingZeros_len _) (le_trans (takeUntilNone_len _) ?_)
  simp [toComps]

/-- Reading `toComps` back through `vget`. -/
theorem vget_eq_of_toComps_get? (t : VersionTuple) (i : Nat) (v : Option Nat)
    (h : (toComps t).get? i = some v) : vget t i = v := by
  rcases t with ⟨a, b, c, d⟩
  rcases i with _ | (_ | (_ | (_ | i)))
  · have h' : a = v := by simpa [toComps] using h
    subst h'; rfl
  · have h' : b = v := by simpa [toComps] using h
    subst h'; rfl
  · have h' : c = v := by simpa [toComps] using h
    subst h'; rfl
  · have h' : d = v := by simpa [toComps] using h
    subst h'; rfl
  · exfalso; simp [toComps] at h

/-- Beyond the components of `L`, the tuple built from `L` is None. -/
theorem vget_tupleFromList_none (L : List Nat) (i : Nat) (h : L.get? i = none) :
    vget (tupleFromList L) i = none := by
  rcases i with _ | (_ | (_ | (_ | i)))
  · simpa [tupleFromList, vget] using h
  · simpa [tupleFromList, vget] using h
  · simpa [tupleFromList, vget] using h
  · simpa [tupleFromList, vget] using h
  · exact vget_ge_four _ i

/-- C6 counterexample to the claim as stated: the tag `v1.0GA` produces
    `t = (1, 0, None, None)`, whose display form is `"1"`; re-parsing
    `v1GA` yields `(1, None, None, None)`, which disagrees with `t` at the
    leading non-None position 1 (`0` there re-parses as None because display
    drops the trailing zero). -/
theorem parse_display_roundtrip_counterexample :
    tag_match (("v1.0GA").toList) = some ((some 1, some 0, none, none), gaChars)
    ∧ display (some 1, some 0, none, none) = "1"
    ∧ tag_match ('v' :: (displayChars (some 1, some 0, none, none) ++ gaChars))
        = some ((some 1, none, none, none), gaChars)
    ∧ vget (some 1, some 0, none, none) 1 = some 0
    ∧ vget (some 1, none, none, none) 1 = none := by
  refine ⟨by decide, by decide, by decide, by decide, by decide⟩

/-- C6 amended: for every tuple `t` produced by either grammar whose display
    form is non-empty, re-parsing `display(t)` with the same fixed suffix
    re-appended (and a path prefix for the branch grammar) succeeds and
    yields the tuple of `t`'s significant components: it agrees with `t` at
    every leading position before `t`'s trailing run of zero components, and
    is None from that run onward. -/
theorem parse_display_roundtrip (s : List Char) (t : VersionTuple) (g : List Char)
    (hsig : sigComps t ≠ []) :
    (tag_match s = some (t, g) →
        tag_match ('v' :: (displayChars t ++ g)) = some (tupleFromList (sigComps t), g))
    ∧ (branch_match s = some (t, g) →
        branch_match ('x' :: '/' :: (displayChars t ++ g))
          = some (tupleFromList (sigComps t), g))
    ∧ (∀ i v, (sigComps t).get? i = some v → vget t i = some v)
    ∧ (∀ i, (sigComps t).get? i = none → vget (tupleFromList (sigComps t)) i = none) := by
  refine ⟨fun h => ?_, fun h => ?_, fun i v h => ?_,
    fun i h => vget_tupleFromList_none _ i h⟩
  · obtain ⟨rfl, -⟩ := tag_match_inv s t g h
    rw [displayChars_eq]
    exact tag_reparse (sigComps t) hsig (sigComps_len_le_four t)
  · obtain ⟨hg, -⟩ := branch_match_inv s t g h
    rw [displayChars_eq]
    exact branch_reparse (sigComps t) g hsig (sigComps_len_le_four t) hg
  · exact vget_eq_of_toComps_get? t i (some v)
      (takeUntilNone_get? _ i v (dropTrailingZeros_get? _ i v h))

/-- Witness for the amended C6 at the concrete tag `v1.2GA`. -/
theorem parse_display_roundtrip_witness :
    tag_match ('v' :: (displayChars (some 1, some 2, none, none) ++ gaChars))
      = some (tupleFromList (sigComps (some 1, some 2, none, none)), gaChars) :=
  (parse_display_roundtrip (("v1.2GA").toList) (some 1, some 2, none, none) gaChars
    (by decide)).1 (by decide)

end Mkversion
